import Mathlib

/-!
Verification of the git-contributions CLI core (scan.go / stats.go) against its
specification.  The Go code is shallowly embedded: timestamps are modelled as
natural numbers of seconds in a fixed-offset local timezone (so one day is
exactly 86400 seconds, matching the code's use of 24-hour steps), Go maps are
modelled as insertion-ordered association lists, and panics/fatal errors are
modelled with Except.
-/

namespace GitStats

/-- Sentinel constant from stats.go: `const outOfRange = 99999`. -/
def outOfRange : Nat := 99999

/-- `const daysInLastSixMonths = 183` from stats.go. -/
def daysInLastSixMonths : Nat := 183

/-- `const weeksInLastSixMonths = 26` from stats.go. -/
def weeksInLastSixMonths : Nat := 26

/-- Seconds in a 24-hour step (`24 * time.Hour`). -/
def secondsPerDay : Nat := 86400

/-- `getBeginningOfDay`: truncate a timestamp to local midnight. -/
def getBeginningOfDay (t : Nat) : Nat :=
  t / secondsPerDay * secondsPerDay

/-- The loop of `countDaysSinceDate`: while `date.Before(now)`, advance the
date by one 24-hour step and count; return the sentinel as soon as the count
exceeds `daysInLastSixMonths`. -/
def countLoop (date now days : Nat) : Nat :=
  if date < now then
    let date' := date + secondsPerDay
    let days' := days + 1
    if days' > daysInLastSixMonths then outOfRange
    else countLoop date' now days'
  else days
termination_by daysInLastSixMonths + 1 - days
decreasing_by
  simp only [daysInLastSixMonths] at *
  omega

/-- `countDaysSinceDate`: forward stepping from the commit timestamp up to
"now" truncated to local midnight.  `now` is the current instant, read from
the clock in the Go code and passed explicitly here. -/
def countDaysSinceDate (date now : Nat) : Nat :=
  countLoop date (getBeginningOfDay now) 0

/-- Unfolding equation for a single iteration of `countLoop`. -/
theorem countLoop_eq (date now days : Nat) :
    countLoop date now days =
      if date < now then
        if days + 1 > daysInLastSixMonths then outOfRange
        else countLoop (date + secondsPerDay) now (days + 1)
      else days := by
  rw [countLoop]

/-- If even after `n` more steps the date is still before `now`, where
`days + n = 183`, the loop hits the sentinel. -/
theorem countLoop_far (n : Nat) :
    ∀ date now days : Nat, days + n = daysInLastSixMonths →
      date + n * secondsPerDay < now →
      countLoop date now days = outOfRange := by
  induction n with
  | zero =>
      intro date now days hdays hlt
      rw [countLoop_eq]
      simp only [Nat.mul_zero, Nat.zero_mul, Nat.add_zero] at hlt
      rw [if_pos hlt, if_pos (by omega)]
  | succ n ih =>
      intro date now days hdays hlt
      have hstep : date < now := by
        have : date ≤ date + (n + 1) * secondsPerDay := Nat.le_add_right _ _
        omega
      rw [countLoop_eq, if_pos hstep, if_neg (by omega)]
      apply ih
      · omega
      · have : date + secondsPerDay + n * secondsPerDay
            = date + (n + 1) * secondsPerDay := by ring
        omega

/-- If `now` is reached after exactly `n` steps (and the sentinel threshold
is not hit first), the loop returns `days + n`. -/
theorem countLoop_conv (n : Nat) :
    ∀ date now days : Nat, days + n ≤ daysInLastSixMonths →
      now ≤ date + n * secondsPerDay →
      (∀ m, m < n → date + m * secondsPerDay < now) →
      countLoop date now days = days + n := by
  induction n with
  | zero =>
      intro date now days _ hle _
      rw [countLoop_eq]
      simp only [Nat.mul_zero, Nat.zero_mul, Nat.add_zero] at *
      rw [if_neg (by omega)]
  | succ n ih =>
      intro date now days hbound hle hlt
      have h0 : date < now := by
        have := hlt 0 (Nat.succ_pos n)
        simpa using this
      rw [countLoop_eq, if_pos h0, if_neg (by omega)]
      have := ih (date + secondsPerDay) now (days + 1) (by omega)
        (by have : date + secondsPerDay + n * secondsPerDay
              = date + (n + 1) * secondsPerDay := by ring
            omega)
        (by intro m hm
            have := hlt (m + 1) (by omega)
            have hms : date + secondsPerDay + m * secondsPerDay
                = date + (m + 1) * secondsPerDay := by ring
            omega)
      omega

/-- Evaluation fact: a commit at local time 0 is 184 whole days before the
instant `184 * 86400`, so the loop hits the sentinel. -/
theorem countDaysSinceDate_eval_sentinel :
    countDaysSinceDate 0 (184 * secondsPerDay) = outOfRange := by
  rw [countDaysSinceDate]
  have hb : getBeginningOfDay (184 * secondsPerDay) = 184 * secondsPerDay := by
    simp [getBeginningOfDay, secondsPerDay]
  rw [hb]
  exact countLoop_far daysInLastSixMonths 0 _ 0 (by simp)
    (by simp [daysInLastSixMonths, secondsPerDay])

/-- Evaluation fact: a commit at local time `86400` is 183 whole days before
the instant `184 * 86400`. -/
theorem countDaysSinceDate_eval_183 :
    countDaysSinceDate secondsPerDay (184 * secondsPerDay) = 183 := by
  rw [countDaysSinceDate]
  have hb : getBeginningOfDay (184 * secondsPerDay) = 184 * secondsPerDay := by
    simp [getBeginningOfDay, secondsPerDay]
  rw [hb]
  have := countLoop_conv 183 secondsPerDay (184 * secondsPerDay) 0
    (by simp [daysInLastSixMonths])
    (by simp [secondsPerDay])
    (by intro m hm
        simp only [secondsPerDay]
        omega)
  simpa using this

/-- Claim C2: `countDaysSinceDate` forward-steps from the commit timestamp
until reaching "now" truncated to local midnight, bailing out with the
out-of-range sentinel as soon as the step count exceeds 183.  Consequently a
commit dated exactly "now" yields 0, and a commit dated 184 days before now
yields the sentinel. -/
theorem countDaysSinceDate_now_zero_and_184_sentinel (now : Nat) :
    countDaysSinceDate now now = 0 ∧
      (184 * secondsPerDay ≤ now →
        countDaysSinceDate (now - 184 * secondsPerDay) now = outOfRange) := by
  constructor
  · rw [countDaysSinceDate, countLoop_eq]
    have h : getBeginningOfDay now ≤ now := Nat.div_mul_le_self now secondsPerDay
    rw [if_neg (by omega)]
  · intro h
    rw [countDaysSinceDate]
    apply countLoop_far daysInLastSixMonths _ _ 0 (by simp)
    have hq : secondsPerDay * (now / secondsPerDay) + now % secondsPerDay = now :=
      Nat.div_add_mod now secondsPerDay
    have hr : now % secondsPerDay < secondsPerDay :=
      Nat.mod_lt now (by simp [secondsPerDay])
    simp only [getBeginningOfDay, daysInLastSixMonths, secondsPerDay] at *
    omega

/-- Witness for C2 at the concrete instant `now = 184 * 86400`. -/
theorem countDaysSinceDate_witness :
    184 * secondsPerDay ≤ 184 * secondsPerDay ∧
      countDaysSinceDate (184 * secondsPerDay - 184 * secondsPerDay)
        (184 * secondsPerDay) = outOfRange ∧
      countDaysSinceDate (184 * secondsPerDay) (184 * secondsPerDay) = 0 :=
  ⟨Nat.le_refl _,
   (countDaysSinceDate_now_zero_and_184_sentinel (184 * secondsPerDay)).2
     (Nat.le_refl _),
   (countDaysSinceDate_now_zero_and_184_sentinel (184 * secondsPerDay)).1⟩

/-- The seven weekdays of `time.Weekday` (the clock only ever produces these
seven values). -/
inductive Weekday where
  | sunday
  | monday
  | tuesday
  | wednesday
  | thursday
  | friday
  | saturday

/-- `calcOffset` from stats.go: the weekday-based shift, read off the switch
statement (Sunday→7, Saturday→6, ..., Monday→1). -/
def calcOffset (weekday : Weekday) : Nat :=
  match weekday with
  | .sunday => 7
  | .saturday => 6
  | .friday => 5
  | .thursday => 4
  | .wednesday => 3
  | .tuesday => 2
  | .monday => 1

/-- `checkEmail` from stats.go: linear scan for an exact string match. -/
def checkEmail (email : String) : List String → Bool
  | [] => false
  | e :: rest => if e = email then true else checkEmail email rest

/-- Lookup in a Go map modelled as an insertion-ordered association list
(the `v, ok := m[k]` form). -/
def mapGet? {α : Type} : List (Nat × α) → Nat → Option α
  | [], _ => none
  | (k', v) :: rest, k => if k' = k then some v else mapGet? rest k

/-- Assignment `m[k] = v` on the association-list model of a Go map:
replace in place if the key is present, append otherwise. -/
def mapSet {α : Type} : List (Nat × α) → Nat → α → List (Nat × α)
  | [], k, v => [(k, v)]
  | (k', v') :: rest, k, v =>
      if k' = k then (k, v) :: rest else (k', v') :: mapSet rest k v

/-- `m[k]++` on a Go `map[int]int`: a missing key reads as 0 and the
incremented value is stored. -/
def mapIncr (m : List (Nat × Nat)) (k : Nat) : List (Nat × Nat) :=
  mapSet m k ((mapGet? m k).getD 0 + 1)

/-- The seeding loop of `processRepositories`: `commits[i] = 0` for every
`i` in `[0, daysInLastSixMonths)`. -/
def seedCommits : List (Nat × Nat) :=
  (List.range daysInLastSixMonths).map (fun i => (i, 0))

/-- The bucketing loop of `fillCommits` from stats.go.  A commit is a pair of
author email and author timestamp; `offset` is the value of `calcOffset()`
computed before the loop, and `now` is the clock instant used by
`countDaysSinceDate`.  Commits by unauthorized emails are skipped; otherwise
`daysAgo := countDaysSinceDate(when) + offset` and the bucket is incremented
whenever `daysAgo != outOfRange`. -/
def fillCommits (emails : List String) (offset : Nat)
    (log : List (String × Nat)) (now : Nat)
    (commits : List (Nat × Nat)) : List (Nat × Nat) :=
  match log with
  | [] => commits
  | c :: rest =>
      if checkEmail c.1 emails then
        let daysAgo := countDaysSinceDate c.2 now + offset
        if daysAgo ≠ outOfRange then
          fillCommits emails offset rest now (mapIncr commits daysAgo)
        else
          fillCommits emails offset rest now commits
      else
        fillCommits emails offset rest now commits

/-- `processRepositories` from stats.go: seed the counts map with zeros for
offsets 0..182, then fold `fillCommits` over the registered repositories
(each repository contributing its commit log). -/
def processRepositories (emails : List String) (offset : Nat)
    (repoLogs : List (List (String × Nat))) (now : Nat) : List (Nat × Nat) :=
  repoLogs.foldl (fun commits log => fillCommits emails offset log now commits)
    seedCommits

/-- Claim C1, evaluated at the failing inputs.  The spec says every computed
day offset outside [0,182] is discarded and never stored, so the key set of
the commit-counts map stays exactly 0..182.  The code only tests
`daysAgo != outOfRange` after adding the weekday shift, so the guard never
fires: on a Monday (shift 1), a commit 184 days old stores key
99999 + 1 = 100000, and on a Sunday (shift 7) a commit with daysSince = 183
stores key 190 > 182. -/
theorem processRepositories_stores_out_of_range_keys :
    mapGet? (processRepositories ["a@b.c"] 1 [[("a@b.c", 0)]]
      (184 * secondsPerDay)) 100000 = some 1 ∧
    mapGet? (processRepositories ["a@b.c"] 7 [[("a@b.c", secondsPerDay)]]
      (184 * secondsPerDay)) 190 = some 1 := by
  constructor
  · simp only [processRepositories, List.foldl, fillCommits, checkEmail,
      countDaysSinceDate_eval_sentinel]
    decide
  · simp only [processRepositories, List.foldl, fillCommits, checkEmail,
      countDaysSinceDate_eval_183]
    decide

/-- A column of the grid (Go `type column []int`); values are commit counts. -/
def column := List Nat

/-- The loop of `buildCols` from stats.go: iterate the sorted keys; for key
`k`, week = `k / 7` and day = `k % 7`; reset the running column when day is 0,
append the count, and store the column under its week when day is 6. -/
def buildColsLoop (commits : Nat → Nat) :
    List Nat → List (Nat × column) → column → List (Nat × column)
  | [], cols, _ => cols
  | k :: rest, cols, col =>
      let week := k / 7
      let day := k % 7
      let col' := if day = 0 then ([] : column) else col
      let col'' := col' ++ [commits k]
      let cols' := if day = 6 then mapSet cols week col'' else cols
      buildColsLoop commits rest cols' col''

/-- `buildCols` from stats.go, with the commit-counts map read through the
function `commits` (every iterated key is present in the Go map). -/
def buildCols (keys : List Nat) (commits : Nat → Nat) : List (Nat × column) :=
  buildColsLoop commits keys [] []

/-- Claim C6: on the ascending offsets 0..6, `buildCols` produces exactly one
column, stored under week index 0, holding the seven counts in order. -/
theorem buildCols_week0 (commits : Nat → Nat) :
    buildCols (List.range 7) commits =
      [(0, [commits 0, commits 1, commits 2, commits 3, commits 4,
            commits 5, commits 6])] := by
  rfl

/-- Claim C5, counterexample.  On the full ascending offset range 0..182 with
the injective counts function `fun k => k`, the count of offset 182 (the value
182, produced by no other offset) appears in no stored column — offset 182
starts the week-26 column, whose day-in-week never reaches 6 — and every
stored column has exactly 7 entries, so no boundary week yields a stored
column with fewer than 7 entries. -/
theorem buildCols_drops_offset_182 :
    ((buildCols (List.range 183) (fun k => k)).all
        (fun p => !(p.2.contains 182))) = true ∧
    ((buildCols (List.range 183) (fun k => k)).all
        (fun p => p.2.length == 7)) = true := by
  constructor
  · decide
  · decide

/-- The seven consecutive keys of week `w`. -/
def weekKeys (w : Nat) : List Nat :=
  [7 * w, 7 * w + 1, 7 * w + 2, 7 * w + 3, 7 * w + 4, 7 * w + 5, 7 * w + 6]

/-- The column that `buildCols` accumulates for a full week `w`. -/
def weekCounts (commits : Nat → Nat) (w : Nat) : column :=
  [commits (7 * w), commits (7 * w + 1), commits (7 * w + 2),
   commits (7 * w + 3), commits (7 * w + 4), commits (7 * w + 5),
   commits (7 * w + 6)]

/-- Processing the seven keys of a full week resets the running column at the
day-0 key, accumulates the seven counts, and stores the finished column under
week `w` at the day-6 key. -/
theorem buildColsLoop_full_week (commits : Nat → Nat) (w : Nat)
    (rest : List Nat) (cols : List (Nat × column)) (col : column) :
    buildColsLoop commits (weekKeys w ++ rest) cols col =
      buildColsLoop commits rest (mapSet cols w (weekCounts commits w))
        (weekCounts commits w) := by
  simp [weekKeys, weekCounts, buildColsLoop, Nat.mul_add_mod, Nat.mul_add_div,
    Nat.mul_mod_right, Nat.mul_div_cancel_left]

/-- Processing `n` consecutive full weeks starting at week `a` folds a
`mapSet` per week over the accumulated grid. -/
theorem buildColsLoop_weeks (commits : Nat → Nat) (rest : List Nat) :
    ∀ (n a : Nat) (cols : List (Nat × column)) (col : column),
      ∃ colF,
        buildColsLoop commits ((List.range' a n).flatMap weekKeys ++ rest)
            cols col =
          buildColsLoop commits rest
            (List.foldl (fun cs w => mapSet cs w (weekCounts commits w))
              cols (List.range' a n)) colF := by
  intro n
  induction n with
  | zero =>
      intro a cols col
      exact ⟨col, by simp [List.range']⟩
  | succ n ih =>
      intro a cols col
      rw [List.range'_succ, List.flatMap_cons, List.append_assoc,
        buildColsLoop_full_week]
      obtain ⟨colF, hF⟩ :=
        ih (a + 1) (mapSet cols a (weekCounts commits a)) (weekCounts commits a)
      exact ⟨colF, by rw [hF, List.foldl_cons]⟩

/-- Setting a key absent from the association list appends it. -/
theorem mapSet_append {α : Type} (k : Nat) (v : α) :
    ∀ cs : List (Nat × α), mapGet? cs k = none → mapSet cs k v = cs ++ [(k, v)] := by
  intro cs
  induction cs with
  | nil => intro _; rfl
  | cons p rest ih =>
      intro h
      rw [mapGet?] at h
      by_cases hk : p.1 = k
      · rw [if_pos hk] at h
        exact absurd h (by simp)
      · rw [if_neg hk] at h
        show mapSet (p :: rest) k v = _
        rw [mapSet.eq_def]
        simp only [if_neg hk]
        rw [ih h]
        rfl

/-- Lookup distributes over append when the key misses the front list. -/
theorem mapGet?_append_of_none {α : Type} (k : Nat) (ds : List (Nat × α)) :
    ∀ cs : List (Nat × α), mapGet? cs k = none →
      mapGet? (cs ++ ds) k = mapGet? ds k := by
  intro cs
  induction cs with
  | nil => intro _; rfl
  | cons p rest ih =>
      intro h
      rw [mapGet?] at h
      by_cases hk : p.1 = k
      · rw [if_pos hk] at h
        exact absurd h (by simp)
      · rw [if_neg hk] at h
        show mapGet? (p :: (rest ++ ds)) k = _
        rw [mapGet?, if_neg hk]
        exact ih h

/-- Folding fresh-key `mapSet`s over ascending week indexes appends the
corresponding entries in order. -/
theorem foldl_mapSet_fresh (g : Nat → column) :
    ∀ (n a : Nat) (cs : List (Nat × column)),
      (∀ w, a ≤ w → mapGet? cs w = none) →
      List.foldl (fun cs w => mapSet cs w (g w)) cs (List.range' a n) =
        cs ++ (List.range' a n).map (fun w => (w, g w)) := by
  intro n
  induction n with
  | zero => intro a cs _; simp [List.range']
  | succ n ih =>
      intro a cs h
      rw [List.range'_succ, List.foldl_cons,
        mapSet_append a (g a) cs (h a (Nat.le_refl a)),
        ih (a + 1) (cs ++ [(a, g a)]) ?_, List.map_cons, List.append_assoc]
      · rfl
      · intro w hw
        rw [mapGet?_append_of_none w [(a, g a)] cs (h w (by omega)),
          mapGet?, if_neg (by omega)]
        rfl

/-- Lookup of a key at or beyond the end of a mapped range misses. -/
theorem mapGet?_mapRange_none (g : Nat → column) :
    ∀ (n a k : Nat), a + n ≤ k →
      mapGet? ((List.range' a n).map (fun w => (w, g w))) k = none := by
  intro n
  induction n with
  | zero => intro a k _; rfl
  | succ n ih =>
      intro a k hk
      rw [List.range'_succ, List.map_cons, mapGet?, if_neg (by omega)]
      exact ih (a + 1) k (by omega)

set_option maxRecDepth 4000 in
/-- Claim C5, amended: iterating the full ascending range 0..182 stores
exactly the weeks 0..25, week `w` holding the counts of offsets
`7*w .. 7*w+6` (7 entries each); offset 182 begins the week-26 column, which
is never stored because its day-in-week never reaches 6. -/
theorem buildCols_range183 (commits : Nat → Nat) :
    buildCols (List.range 183) commits =
      (List.range 26).map (fun w => (w, weekCounts commits w)) ∧
    mapGet? (buildCols (List.range 183) commits) 26 = none := by
  have hkeys : List.range 183 = (List.range' 0 26).flatMap weekKeys ++ [182] := by
    decide
  have h182 : ∀ (cols : List (Nat × column)) (col : column),
      buildColsLoop commits [182] cols col = cols := by
    intro cols col
    simp [buildColsLoop]
  have hmain : buildCols (List.range 183) commits =
      (List.range 26).map (fun w => (w, weekCounts commits w)) := by
    rw [buildCols, hkeys]
    obtain ⟨colF, hF⟩ := buildColsLoop_weeks commits [182] 26 0 [] []
    rw [hF, h182, foldl_mapSet_fresh (weekCounts commits) 26 0 []
      (fun w _ => rfl), List.nil_append, List.range_eq_range']
  refine ⟨hmain, ?_⟩
  rw [hmain, List.range_eq_range']
  exact mapGet?_mapRange_none (weekCounts commits) 26 0 26 (Nat.le_refl _)

/-- Substitute every `%d` verb in a character list by the rendered value. -/
def substD (v : String) : List Char → String
  | [] => ""
  | '%' :: 'd' :: rest => v ++ substD v rest
  | c :: rest => String.mk [c] ++ substD v rest

/-- Substitution of the `%d` verb, modelling `fmt.Printf` for the format
strings used by `printCell`. -/
def sprintfD (fmtStr : String) (val : Nat) : String :=
  substD (toString val) fmtStr.data

/-- `printCell` from stats.go, as the exact string written to the terminal:
escape selection by the value thresholds, the today override, the fixed-width
empty marker for value 0, and the format-string switch whose `val >= 100`
case is only reachable when `val >= 10` fails. -/
def printCell (val : Nat) (today : Bool) : String :=
  let escape :=
    if val > 0 ∧ val < 5 then "\x1b[1;30;47m"
    else if val ≥ 5 ∧ val < 10 then "\x1b[1;30;43m"
    else if val ≥ 10 then "\x1b[1;30;42m"
    else "\x1b[0;37;30m"
  let escape := if today then "\x1b[1;37;45m" else escape
  if val = 0 then escape ++ "  - " ++ "\x1b[0m"
  else
    let str :=
      if val ≥ 10 then " %d "
      else if val ≥ 100 then "%d "
      else "  %d "
    escape ++ sprintfD str val ++ "\x1b[0m"

/-- Claim C4, evaluated at the spec's inputs and at the failing input 100.
Count 0 emits the empty marker, 7 the medium shade, 55 the dark shade in the
once-widened field — but 100 also stays in the once-widened field " 100 "
(the `val >= 100` switch case is shadowed by `val >= 10`), instead of the
claim's twice-widened "100 ". -/
theorem printCell_eval :
    printCell 0 false = "\x1b[0;37;30m  - \x1b[0m" ∧
    printCell 3 false = "\x1b[1;30;47m  3 \x1b[0m" ∧
    printCell 7 false = "\x1b[1;30;43m  7 \x1b[0m" ∧
    printCell 55 false = "\x1b[1;30;42m 55 \x1b[0m" ∧
    printCell 100 false = "\x1b[1;30;42m 100 \x1b[0m" ∧
    printCell 100 false ≠ "\x1b[1;30;42m100 \x1b[0m" := by
  refine ⟨rfl, rfl, rfl, rfl, rfl, ?_⟩
  decide

/-- One cell of the `printCells` body from stats.go, at week column `i` and
weekday row `j`: look the week up in the grid; in the today branch
(`i == 0 && j == calcOffset()-1`) the column is indexed without a length
guard — `none` models the panic of an out-of-range Go slice index; otherwise
the guarded branch prints the count when `len(col) > j` and the empty cell
otherwise. -/
def renderCell (cols : List (Nat × column)) (offset : Nat) (i j : Nat) :
    Option (Nat × Bool) :=
  match mapGet? cols i with
  | some col =>
      if i = 0 ∧ j = offset - 1 then
        if h : j < col.length then some (col.get ⟨j, h⟩, true) else none
      else if h : j < col.length then some (col.get ⟨j, h⟩, false)
      else some (0, false)
  | none => some (0, false)

/-- The body of `printCells`: weekday rows from `j = 6` down to `0`, week
columns from `i = weeksInLastSixMonths + 1` down to `0`. -/
def printCells (cols : List (Nat × column)) (offset : Nat) :
    List (List (Option (Nat × Bool))) :=
  ((List.range 7).reverse).map (fun j =>
    ((List.range (weeksInLastSixMonths + 2)).reverse).map (fun i =>
      renderCell cols offset i j))

/-- `calcOffset` always yields a value in 1..7. -/
theorem calcOffset_bounds (w : Weekday) :
    1 ≤ calcOffset w ∧ calcOffset w ≤ 7 := by
  cases w <;> simp [calcOffset]

/-- Claim C3: with a full 7-entry column stored under week 0, the single cell
at week column 0 and weekday row `calcOffset() - 1` carries the today
highlight regardless of its count, no other cell does, and `calcOffset` maps
Monday→1, ..., Saturday→6, Sunday→7. -/
theorem renderCell_today_highlight (w : Weekday) (cols : List (Nat × column))
    (col : column) (h0 : mapGet? cols 0 = some col) (h7 : col.length = 7) :
    renderCell cols (calcOffset w) 0 (calcOffset w - 1) =
      some (col.getD (calcOffset w - 1) 0, true) ∧
    (∀ i j v b, ¬(i = 0 ∧ j = calcOffset w - 1) →
      renderCell cols (calcOffset w) i j = some (v, b) → b = false) ∧
    (calcOffset .monday = 1 ∧ calcOffset .tuesday = 2 ∧
     calcOffset .wednesday = 3 ∧ calcOffset .thursday = 4 ∧
     calcOffset .friday = 5 ∧ calcOffset .saturday = 6 ∧
     calcOffset .sunday = 7) := by
  have hb := calcOffset_bounds w
  refine ⟨?_, ?_, rfl, rfl, rfl, rfl, rfl, rfl, rfl⟩
  · have hlt : calcOffset w - 1 < col.length := by omega
    simp only [renderCell, h0]
    rw [if_pos ⟨trivial, trivial⟩, dif_pos hlt]
    simp [List.getD_eq_getElem, hlt]
  · intro i j v b hne h
    cases hm : mapGet? cols i with
    | none =>
        simp only [renderCell, hm, Option.some.injEq, Prod.mk.injEq] at h
        exact h.2.symm
    | some col' =>
        simp only [renderCell, hm] at h
        rw [if_neg hne] at h
        by_cases hj : j < col'.length
        · rw [dif_pos hj] at h
          simp only [Option.some.injEq, Prod.mk.injEq] at h
          exact h.2.symm
        · rw [dif_neg hj] at h
          simp only [Option.some.injEq, Prod.mk.injEq] at h
          exact h.2.symm

/-- Witness for C3 on a concrete Monday grid. -/
theorem renderCell_today_highlight_witness :
    mapGet? [(0, ([3, 0, 0, 1, 0, 0, 12] : column))] 0 =
        some ([3, 0, 0, 1, 0, 0, 12] : column) ∧
    ([3, 0, 0, 1, 0, 0, 12] : column).length = 7 ∧
    (renderCell [(0, ([3, 0, 0, 1, 0, 0, 12] : column))]
        (calcOffset .monday) 0 (calcOffset .monday - 1) =
      some (([3, 0, 0, 1, 0, 0, 12] : column).getD
        (calcOffset .monday - 1) 0, true)) := by
  refine ⟨rfl, rfl, ?_⟩
  exact (renderCell_today_highlight .monday
    [(0, ([3, 0, 0, 1, 0, 0, 12] : column))] [3, 0, 0, 1, 0, 0, 12]
    rfl rfl).1

/-- Claim C10: for every weekday, `calcOffset` lies in 1..7 and is never the
unshifted 0, so the today row `calcOffset() - 1` lies in 0..6 and the
unguarded `col[j]` indexing in the today branch succeeds (no panic) for every
stored 7-entry week-0 column. -/
theorem calcOffset_today_index_safe (w : Weekday) (cols : List (Nat × column))
    (col : column) (h0 : mapGet? cols 0 = some col) (h7 : col.length = 7) :
    (1 ≤ calcOffset w ∧ calcOffset w ≤ 7) ∧
    calcOffset w - 1 ≤ 6 ∧
    (renderCell cols (calcOffset w) 0 (calcOffset w - 1)).isSome = true := by
  have hb := calcOffset_bounds w
  refine ⟨hb, by omega, ?_⟩
  have hlt : calcOffset w - 1 < col.length := by omega
  simp only [renderCell, h0]
  rw [if_pos ⟨trivial, trivial⟩, dif_pos hlt]
  rfl

/-- Witness for C10 on a concrete Sunday grid. -/
theorem calcOffset_today_index_safe_witness :
    mapGet? [(0, ([0, 0, 0, 0, 0, 0, 0] : column))] 0 =
        some ([0, 0, 0, 0, 0, 0, 0] : column) ∧
    ([0, 0, 0, 0, 0, 0, 0] : column).length = 7 ∧
    (renderCell [(0, ([0, 0, 0, 0, 0, 0, 0] : column))]
        (calcOffset .sunday) 0 (calcOffset .sunday - 1)).isSome = true := by
  refine ⟨rfl, rfl, ?_⟩
  exact (calcOffset_today_index_safe .sunday
    [(0, ([0, 0, 0, 0, 0, 0, 0] : column))] [0, 0, 0, 0, 0, 0, 0]
    rfl rfl).2.2

/-- `sliceContains` from scan.go: linear membership scan by exact string
equality. -/
def sliceContains (repoSlice : List String) (fileName : String) : Bool :=
  match repoSlice with
  | [] => false
  | f :: rest => if f = fileName then true else sliceContains rest fileName

/-- `joinSlice` from scan.go: append each incoming entry to `existing`
unless already present (the membership test sees earlier appends, since the
loop grows `existing` in place). -/
def joinSlice (existing : List String) (incoming : List String) : List String :=
  match incoming with
  | [] => existing
  | f :: rest =>
      if sliceContains existing f then joinSlice existing rest
      else joinSlice (existing ++ [f]) rest

/-- The entries `joinSlice` appends: each incoming entry not already present
in the accumulated sequence, in incoming order. -/
def newEntries (existing : List String) : List String → List String
  | [] => []
  | f :: rest =>
      if sliceContains existing f then newEntries existing rest
      else f :: newEntries (existing ++ [f]) rest

/-- `sliceContains` decides list membership. -/
theorem sliceContains_iff (fileName : String) :
    ∀ repoSlice : List String,
      sliceContains repoSlice fileName = true ↔ fileName ∈ repoSlice := by
  intro repoSlice
  induction repoSlice with
  | nil => simp [sliceContains]
  | cons f rest ih =>
      by_cases hf : f = fileName
      · simp [sliceContains, hf]
      · simp [sliceContains, hf, ih]
        intro h
        exact absurd h.symm hf

/-- `joinSlice` is `existing` followed by the fresh incoming entries. -/
theorem joinSlice_eq_append (incoming : List String) :
    ∀ existing : List String,
      joinSlice existing incoming = existing ++ newEntries existing incoming := by
  induction incoming with
  | nil => intro existing; simp [joinSlice, newEntries]
  | cons f rest ih =>
      intro existing
      by_cases hc : sliceContains existing f
      · simp [joinSlice, newEntries, hc, ih]
      · simp only [joinSlice, newEntries, hc, Bool.false_eq_true, if_false,
          ih (existing ++ [f]), List.append_assoc, List.singleton_append]

/-- The fresh entries are a subsequence of the incoming list. -/
theorem newEntries_sublist (incoming : List String) :
    ∀ existing : List String,
      (newEntries existing incoming).Sublist incoming := by
  induction incoming with
  | nil => intro existing; simp [newEntries]
  | cons f rest ih =>
      intro existing
      by_cases hc : sliceContains existing f
      · simp only [newEntries, hc, if_true]
        exact (ih existing).cons f
      · simp only [newEntries, hc, Bool.false_eq_true, if_false]
        exact (ih (existing ++ [f])).cons₂ f

/-- A fresh entry was not already present in the existing sequence. -/
theorem newEntries_not_mem (incoming : List String) :
    ∀ existing x, x ∈ newEntries existing incoming → x ∉ existing := by
  induction incoming with
  | nil => intro existing x hx; simp [newEntries] at hx
  | cons f rest ih =>
      intro existing x hx
      by_cases hc : sliceContains existing f
      · rw [newEntries, if_pos hc] at hx
        exact ih existing x hx
      · rw [newEntries, if_neg hc] at hx
        rcases List.mem_cons.mp hx with hx | hx
        · subst hx
          intro hmem
          exact hc ((sliceContains_iff x existing).mpr hmem)
        · intro hmem
          exact ih (existing ++ [f]) x hx (by simp [hmem])

/-- Claim C7: `joinSlice existing incoming` is `existing` followed by each
incoming entry not already present (exact string equality), in incoming
order, with `existing` itself untouched; in particular merging a single path
into a duplicate-free registry leaves exactly one occurrence of it. -/
theorem joinSlice_spec (existing incoming : List String) (p : String)
    (hnd : existing.Nodup) :
    joinSlice existing incoming = existing ++ newEntries existing incoming ∧
    (newEntries existing incoming).Sublist incoming ∧
    (∀ x ∈ newEntries existing incoming, x ∉ existing) ∧
    (joinSlice existing [p]).count p = 1 := by
  refine ⟨joinSlice_eq_append incoming existing, newEntries_sublist incoming existing,
    newEntries_not_mem incoming existing, ?_⟩
  by_cases hp : sliceContains existing p
  · rw [joinSlice, if_pos hp, joinSlice]
    exact List.count_eq_one_of_mem hnd ((sliceContains_iff p existing).mp hp)
  · rw [joinSlice, if_neg hp, joinSlice, List.count_append]
    have h0 : existing.count p = 0 :=
      List.count_eq_zero.mpr (fun hm => hp ((sliceContains_iff p existing).mpr hm))
    simp [h0]

/-- Witness for C7: merging "a" into the registry ["a", "b"]. -/
theorem joinSlice_spec_witness :
    (["a", "b"] : List String).Nodup ∧
    (joinSlice ["a", "b"] ["a"]).count "a" = 1 :=
  ⟨by decide, (joinSlice_spec ["a", "b"] ["a"] "a" (by decide)).2.2.2⟩

/-- A directory tree: what the recursive walk reads through `ReadDir`. -/
inductive FSEntry where
  | dir (name : String) (children : List FSEntry)
  | file (name : String)

/-- `strings.TrimSuffix`: drop the suffix when present, byte-for-byte on the
character sequence. -/
def trimSuffixStr (s suffix : String) : String :=
  if suffix.data.isSuffixOf s.data then
    String.mk (s.data.take (s.data.length - suffix.data.length))
  else s

/-- The entry loop of `scanGitFolders` from scan.go over the directory's
entries: non-directories are skipped; a `.git` entry records the trimmed
parent path and is not descended into; `node_modules` and `vendor` are
skipped; any other directory is recursed into (the recursive call trims a
trailing slash from the path it receives, as `scanGitFolders` does on
entry). -/
def scanLoop (folders : List String) (folder : String) :
    List FSEntry → List String
  | [] => folders
  | FSEntry.file _ :: rest => scanLoop folders folder rest
  | FSEntry.dir name children :: rest =>
      let path := folder ++ "/" ++ name
      if name = ".git" then
        scanLoop (folders ++ [trimSuffixStr path "/.git"]) folder rest
      else if name = "node_modules" ∨ name = "vendor" then
        scanLoop folders folder rest
      else
        scanLoop (scanLoop folders (trimSuffixStr path "/") children) folder rest

/-- `scanGitFolders` from scan.go: trim a trailing slash from the folder,
then walk its entries. -/
def scanGitFolders (folders : List String) (folder : String)
    (entries : List FSEntry) : List String :=
  scanLoop folders (trimSuffixStr folder "/") entries

/-- Appending a known suffix and trimming it again is the identity. -/
theorem trimSuffixStr_append (s t : String) :
    trimSuffixStr (s ++ t) t = s := by
  rw [trimSuffixStr]
  have hsf : t.data.isSuffixOf (s ++ t).data = true := by
    rw [List.isSuffixOf_iff_suffix]
    exact ⟨s.data, (String.data_append s t).symm⟩
  rw [if_pos hsf]
  have hdata : (s ++ t).data = s.data ++ t.data := String.data_append s t
  rw [hdata, List.length_append, Nat.add_sub_cancel, List.take_left]

/-- Claim C8: a `.git` entry records the parent directory and its subtree is
never walked; an excluded directory such as `node_modules` is skipped without
descending; consequently, on a root containing `A/.git` and
`A/node_modules/B/.git`, discovery returns exactly `["root/A"]`. -/
theorem scanGitFolders_discovers_A_only :
    (∀ (folders : List String) (folder : String)
        (children : List FSEntry) (rest : List FSEntry),
      scanLoop folders folder (FSEntry.dir ".git" children :: rest) =
        scanLoop (folders ++ [folder]) folder rest) ∧
    (∀ (folders : List String) (folder : String)
        (children : List FSEntry) (rest : List FSEntry),
      scanLoop folders folder (FSEntry.dir "node_modules" children :: rest) =
        scanLoop folders folder rest) ∧
    scanGitFolders [] "root"
        [FSEntry.dir "A"
          [FSEntry.dir ".git" [],
           FSEntry.dir "node_modules" [FSEntry.dir "B" [FSEntry.dir ".git" []]]]] =
      ["root/A"] := by
  refine ⟨?_, ?_, ?_⟩
  · intro folders folder children rest
    have h2 : ("/" : String) ++ ".git" = "/.git" := by decide
    have htrim : trimSuffixStr (folder ++ "/" ++ ".git") "/.git" = folder := by
      rw [String.append_assoc, h2]
      exact trimSuffixStr_append folder "/.git"
    simp [scanLoop, htrim]
  · intro folders folder children rest
    simp [scanLoop]
  · simp only [scanGitFolders, scanLoop]
    decide

/-- The state of the persisted registry file as seen by `openFile`:
present with some contents, absent (`fs.ErrNotExist`), or failing with any
other I/O error. -/
inductive Disk where
  | present (content : String)
  | absent
  | faulty

/-- `openFile` from scan.go: open the registry file read-write; on
`fs.ErrNotExist` recover by creating an empty file; panic on any other
error.  The result is the readable content together with the file state left
on disk, and `Except.error` models the panic. -/
def openFile : Disk → Except Unit (String × Disk)
  | Disk.present content => Except.ok (content, Disk.present content)
  | Disk.absent => Except.ok ("", Disk.present "")
  | Disk.faulty => Except.error ()

/-- The line scan of `parseExistingRepos` (`bufio.Scanner`): newline-split
tokens, with no token for an empty input and none for a trailing newline. -/
def scanLines (s : String) : List String :=
  if s = "" then []
  else
    let parts := s.splitOn "\n"
    if parts.getLast? = some "" then parts.dropLast else parts

/-- `parseExistingRepos` from scan.go: open (or create) the registry file and
collect its lines; a panic in `openFile` aborts. -/
def parseExistingRepos (d : Disk) : Except Unit (List String × Disk) :=
  match openFile d with
  | Except.ok (content, d') => Except.ok (scanLines content, d')
  | Except.error e => Except.error e

/-- Claim C9: a missing registry file is recovered by creating an empty file,
and the subsequent parse yields the empty sequence so the run proceeds; any
other I/O failure when opening the registry is fatal. -/
theorem parseExistingRepos_recovers_missing_file :
    parseExistingRepos Disk.absent = Except.ok ([], Disk.present "") ∧
    parseExistingRepos Disk.faulty = Except.error () ∧
    (∀ content, parseExistingRepos (Disk.present content) =
      Except.ok (scanLines content, Disk.present content)) :=
  ⟨rfl, rfl, fun _ => rfl⟩

end GitStats
